import Mathlib

/-!
Verification of the TikHub WeChat Channels pipeline
(`scripts/tikhub_wechat_channels.py`) and the size-targeted transcoder
(`scripts/compress_video_to_size.py`).

The Python sources are shallowly embedded: file contents are lists of
bytes, dict-shaped JSON values are a small `Json` inductive, Python
floats are idealised as rationals, and functions that raise become
functions returning an explicit error component.
-/

namespace TikHub

/-- A byte of a file, modelled as a natural number. -/
abbrev Byte := Nat

/-- Embedding of `_decrypt_file(enc_path, out_path, keystream)`.

The ciphertext file is the byte list `cipher`; the result is the pair of
the bytes written to `out_path` and the raised error, if any.  The code
reads `head = fin.read(len(keystream))`, raises when the head is empty,
writes the byte-wise XOR of head and keystream, then copies the rest of
the input in 1 MiB chunks; chunked copying of a byte stream is observably
plain concatenation, so the remainder is appended verbatim. -/
def decrypt_file (keystream : List Byte) (cipher : List Byte) :
    List Byte × Option String :=
  let head := cipher.take keystream.length
  if head.isEmpty then
    ([], some "Encrypted file is empty")
  else
    (List.zipWith Nat.xor head keystream ++ cipher.drop keystream.length, none)

/-- XOR is self-inverse pointwise along a zip: XOR-ing with the same list
twice restores the prefix that was combined. -/
theorem zipWith_xor_self_inverse (a b : List Byte) :
    List.zipWith Nat.xor (List.zipWith Nat.xor a b) b = a.take b.length := by
  induction a generalizing b with
  | nil => simp
  | cons x xs ih =>
    cases b with
    | nil => simp
    | cons y ys =>
      simp only [List.zipWith, List.take, List.cons.injEq]
      exact ⟨Nat.xor_cancel_right y x, ih ys⟩

/-- The first read is nonempty exactly when both the ciphertext and the
keystream are nonempty. -/
theorem decrypt_head_isEmpty (keystream cipher : List Byte) :
    (cipher.take keystream.length).isEmpty = true ↔
      keystream = [] ∨ cipher = [] := by
  rw [List.isEmpty_iff, List.take_eq_nil_iff]
  constructor
  · rintro (h | h)
    · exact Or.inl (List.length_eq_zero.mp h)
    · exact Or.inr h
  · rintro (h | h)
    · exact Or.inl (by simp [h])
    · exact Or.inr h

/-- On a nonempty ciphertext and a nonempty keystream, `_decrypt_file`
succeeds and writes the XOR-ed head followed by the untouched tail. -/
theorem decrypt_file_eq_of_ne (ks c : List Byte) (hk : ks ≠ []) (hc : c ≠ []) :
    decrypt_file ks c =
      (List.zipWith Nat.xor (c.take ks.length) ks ++ c.drop ks.length, none) := by
  simp only [decrypt_file]
  rw [if_neg]
  intro h
  rcases (decrypt_head_isEmpty ks c).mp h with h | h
  · exact hk h
  · exact hc h

/-- C1: for every keystream of positive length and every ciphertext whose
first `len(keystream)` bytes exist, `_decrypt_file` succeeds, copies the
bytes beyond offset `len(keystream)` verbatim on each pass, and applying
it twice with the same keystream reproduces the ciphertext exactly
(in particular on its first `len(keystream)` bytes). -/
theorem decrypt_file_self_inverse (ks c : List Byte)
    (hk : ks ≠ []) (hlen : ks.length ≤ c.length) :
    (decrypt_file ks c).2 = none ∧
    (decrypt_file ks c).1.drop ks.length = c.drop ks.length ∧
    (decrypt_file ks (decrypt_file ks c).1).2 = none ∧
    (decrypt_file ks (decrypt_file ks c).1).1 = c := by
  have hc : c ≠ [] := by
    intro h
    rw [h] at hlen
    simp only [List.length_nil, Nat.le_zero] at hlen
    exact hk (List.length_eq_zero.mp hlen)
  have hhead : (c.take ks.length).length = ks.length := by
    rw [List.length_take]
    exact Nat.min_eq_left hlen
  have hzlen : (List.zipWith Nat.xor (c.take ks.length) ks).length = ks.length := by
    rw [List.length_zipWith, hhead, Nat.min_self]
  have h1 := decrypt_file_eq_of_ne ks c hk hc
  have hd1ne : List.zipWith Nat.xor (c.take ks.length) ks ++ c.drop ks.length ≠ [] := by
    intro h
    rcases List.append_eq_nil.mp h with ⟨hz, _⟩
    rw [hz] at hzlen
    exact hk (List.length_eq_zero.mp hzlen.symm)
  have h2 := decrypt_file_eq_of_ne ks
    (List.zipWith Nat.xor (c.take ks.length) ks ++ c.drop ks.length) hk hd1ne
  rw [List.take_left' hzlen, List.drop_left' hzlen] at h2
  refine ⟨by rw [h1], by rw [h1]; exact List.drop_left' hzlen, ?_, ?_⟩
  · rw [h1]
    show (decrypt_file ks
      (List.zipWith Nat.xor (c.take ks.length) ks ++ c.drop ks.length)).2 = none
    rw [h2]
  · rw [h1]
    show (decrypt_file ks
      (List.zipWith Nat.xor (c.take ks.length) ks ++ c.drop ks.length)).1 = c
    rw [h2]
    show List.zipWith Nat.xor (List.zipWith Nat.xor (c.take ks.length) ks) ks ++
      c.drop ks.length = c
    rw [zipWith_xor_self_inverse, List.take_of_length_le (le_of_eq hhead),
      List.take_append_drop]

/-- C1 witness: double deobfuscation of `[3, 4, 5]` under keystream
`[1, 2]` restores `[3, 4, 5]`. -/
theorem decrypt_file_self_inverse_witness :
    (decrypt_file [1, 2] (decrypt_file [1, 2] [3, 4, 5]).1).1 = [3, 4, 5] :=
  (decrypt_file_self_inverse [1, 2] [3, 4, 5] (by decide) (by decide)).2.2.2

/-- C2 counterexample: the empty ciphertext is strictly shorter than the
keystream `[1]`, yet `_decrypt_file` raises instead of returning an
output of the ciphertext length. -/
theorem decrypt_file_short_counterexample :
    ([] : List Byte).length < [1].length ∧
    (decrypt_file [1] []).2 = some "Encrypted file is empty" := by
  constructor
  · decide
  · rfl

/-- C2 (amended): for every nonempty ciphertext strictly shorter than the
keystream, `_decrypt_file` raises nothing, XORs exactly the bytes present
positionally against the keystream prefix, and the output length equals
the ciphertext length (no padding). -/
theorem decrypt_file_short_input (ks c : List Byte)
    (hc : c ≠ []) (hlen : c.length < ks.length) :
    (decrypt_file ks c).2 = none ∧
    (decrypt_file ks c).1 = List.zipWith Nat.xor c ks ∧
    (decrypt_file ks c).1.length = c.length := by
  have hk : ks ≠ [] := by
    intro h
    rw [h] at hlen
    simp at hlen
  have htake : c.take ks.length = c := List.take_of_length_le (le_of_lt hlen)
  have hdrop : c.drop ks.length = [] := List.drop_eq_nil_of_le (le_of_lt hlen)
  have h1 := decrypt_file_eq_of_ne ks c hk hc
  rw [htake, hdrop, List.append_nil] at h1
  refine ⟨by rw [h1], by rw [h1], ?_⟩
  rw [h1]
  show (List.zipWith Nat.xor c ks).length = c.length
  rw [List.length_zipWith]
  exact Nat.min_eq_left (le_of_lt hlen)

/-- C2 witness: ciphertext `[7]` under keystream `[1, 2, 3]` succeeds
with single-byte output `[6]`. -/
theorem decrypt_file_short_input_witness :
    (decrypt_file [1, 2, 3] [7]).2 = none ∧
    (decrypt_file [1, 2, 3] [7]).1 = [6] :=
  ⟨(decrypt_file_short_input [1, 2, 3] [7] (by decide) (by decide)).1,
   by rfl⟩

/-- C10: `_decrypt_file` raises its empty-input error exactly when the
initial read returns no bytes, i.e. when the ciphertext is empty or the
keystream has length zero; in the failure case nothing is written, and a
nonempty ciphertext with an empty keystream fails rather than being
copied through. -/
theorem decrypt_file_empty_head (ks c : List Byte) :
    ((decrypt_file ks c).2.isSome ↔ (c = [] ∨ ks = [])) ∧
    ((decrypt_file ks c).2.isSome → (decrypt_file ks c).1 = []) ∧
    (c ≠ [] → ks = [] → decrypt_file ks c = ([], some "Encrypted file is empty")) := by
  by_cases h : (c.take ks.length).isEmpty = true
  · have hres : decrypt_file ks c = ([], some "Encrypted file is empty") := by
      simp only [decrypt_file]
      rw [if_pos h]
    rw [decrypt_head_isEmpty] at h
    refine ⟨?_, fun _ => by rw [hres], fun _ _ => hres⟩
    rw [hres]
    simpa using Or.symm h
  · have hne := h
    rw [decrypt_head_isEmpty] at h
    push_neg at h
    have hres := decrypt_file_eq_of_ne ks c h.1 h.2
    refine ⟨?_, ?_, ?_⟩
    · rw [hres]
      simp [h.1, h.2]
    · rw [hres]
      simp
    · intro _ hkk
      exact absurd hkk h.1

/-- C10 witness: nonempty ciphertext `[7]` with the empty keystream fails
with the empty-input error and writes nothing. -/
theorem decrypt_file_empty_head_witness :
    decrypt_file ([] : List Byte) [7] = ([], some "Encrypted file is empty") :=
  (decrypt_file_empty_head ([] : List Byte) [7]).2.2 (by decide) rfl

/-- A media record of the home-timeline response, reduced to the fields
the selection step reads: the identifier and the `createtime` field,
which may be absent or null (both modelled as `none`). -/
structure MediaRecord where
  id : Nat
  createtime : Option Int
deriving DecidableEq, Repr

/-- The sort key `x.get("createtime") or 0` of the selection step: a
missing or null `createtime` counts as 0 (a present 0 also stays 0). -/
def createtimeKey (r : MediaRecord) : Int :=
  r.createtime.getD 0

/-- One step of the `max` accumulator over the video list: Python `max`
replaces the current best only on a strictly greater key, so the first
element attaining the maximum is kept. -/
def maxStep (best x : MediaRecord) : MediaRecord :=
  if createtimeKey best < createtimeKey x then x else best

/-- Embedding of the selection in `main`: raise on an empty video list,
otherwise `max(videos, key=lambda x: x.get("createtime") or 0)`. -/
def select_latest (videos : List MediaRecord) : Except String MediaRecord :=
  match videos with
  | [] => .error "No videos found in home page response"
  | v :: vs => .ok (vs.foldl maxStep v)

/-- The `max` fold keeps the first element attaining the maximum key:
the input splits as `l1 ++ result :: l2` where every element is bounded
by the result key and everything before the result is strictly below
it. -/
theorem foldl_maxStep_first (vs : List MediaRecord) : ∀ v : MediaRecord,
    ∃ l1 l2, v :: vs = l1 ++ vs.foldl maxStep v :: l2 ∧
      (∀ r ∈ v :: vs, createtimeKey r ≤ createtimeKey (vs.foldl maxStep v)) ∧
      (∀ r ∈ l1, createtimeKey r < createtimeKey (vs.foldl maxStep v)) := by
  induction vs with
  | nil =>
    intro v
    exact ⟨[], [], rfl, by simp, by simp⟩
  | cons y ys ih =>
    intro v
    rw [List.foldl_cons]
    by_cases h : createtimeKey v < createtimeKey y
    · rw [show maxStep v y = y from if_pos h]
      obtain ⟨l1, l2, heq, hub, hlt⟩ := ih y
      have hy : createtimeKey y ≤ createtimeKey (ys.foldl maxStep y) :=
        hub y (List.mem_cons_self y ys)
      refine ⟨v :: l1, l2, by rw [List.cons_append, ← heq], ?_, ?_⟩
      · intro r hr
        rcases List.mem_cons.mp hr with hr | hr
        · exact hr ▸ le_of_lt (lt_of_lt_of_le h hy)
        · exact hub r hr
      · intro r hr
        rcases List.mem_cons.mp hr with hr | hr
        · exact hr ▸ lt_of_lt_of_le h hy
        · exact hlt r hr
    · rw [show maxStep v y = v from if_neg h]
      push_neg at h
      obtain ⟨l1, l2, heq, hub, hlt⟩ := ih v
      have hv : createtimeKey v ≤ createtimeKey (ys.foldl maxStep v) :=
        hub v (List.mem_cons_self v ys)
      cases l1 with
      | nil =>
        simp only [List.nil_append] at heq
        have hveq : v = ys.foldl maxStep v := (List.cons.injEq _ _ _ _).mp heq |>.1
        have hys : ys = l2 := (List.cons.injEq _ _ _ _).mp heq |>.2
        refine ⟨[], y :: l2, ?_, ?_, by simp⟩
        · rw [List.nil_append, ← hveq, hys]
        · intro r hr
          rcases List.mem_cons.mp hr with hr | hr
          · exact hr ▸ hv
          rcases List.mem_cons.mp hr with hr | hr
          · exact hr ▸ le_trans h hv
          · exact hub r (List.mem_cons_of_mem v (hys ▸ hr))
      | cons a t =>
        simp only [List.cons_append] at heq
        have hav : v = a := ((List.cons.injEq _ _ _ _).mp heq).1
        have hys : ys = t ++ ys.foldl maxStep v :: l2 :=
          ((List.cons.injEq _ _ _ _).mp heq).2
        refine ⟨v :: y :: t, l2, ?_, ?_, ?_⟩
        · rw [List.cons_append, List.cons_append, ← hys]
        · intro r hr
          rcases List.mem_cons.mp hr with hr | hr
          · exact hr ▸ hv
          rcases List.mem_cons.mp hr with hr | hr
          · exact hr ▸ le_trans h hv
          · exact hub r (List.mem_cons_of_mem v (hys ▸ hr))
        · have hvlt : createtimeKey v < createtimeKey (ys.foldl maxStep v) := by
            rw [show createtimeKey v = createtimeKey a from by rw [hav]]
            exact hlt a (List.mem_cons_self a t)
          intro r hr
          rcases List.mem_cons.mp hr with hr | hr
          · exact hr ▸ hvlt
          rcases List.mem_cons.mp hr with hr | hr
          · exact hr ▸ lt_of_le_of_lt h hvlt
          · exact hlt r (List.mem_cons_of_mem a hr)

/-- C5: over a nonempty video list the selection returns the first record
attaining the maximum `createtime` key (missing and null count as 0); over
keys `[5, 9, 3]` it picks the key-9 record, over all-zero keys the first
record, over all-missing timestamps the first record; the empty list
raises the no-videos error. -/
theorem select_latest_spec :
    (select_latest [] = .error "No videos found in home page response") ∧
    (∀ v vs, ∃ m l1 l2, select_latest (v :: vs) = .ok m ∧
      v :: vs = l1 ++ m :: l2 ∧
      (∀ r ∈ v :: vs, createtimeKey r ≤ createtimeKey m) ∧
      (∀ r ∈ l1, createtimeKey r < createtimeKey m)) ∧
    (select_latest [⟨1, some 5⟩, ⟨2, some 9⟩, ⟨3, some 3⟩] = .ok ⟨2, some 9⟩) ∧
    (select_latest [⟨1, some 0⟩, ⟨2, some 0⟩] = .ok ⟨1, some 0⟩) ∧
    (∀ v vs, (∀ r ∈ v :: vs, r.createtime = none) →
      select_latest (v :: vs) = .ok v) := by
  refine ⟨rfl, ?_, by rfl, by rfl, ?_⟩
  · intro v vs
    obtain ⟨l1, l2, heq, hub, hlt⟩ := foldl_maxStep_first vs v
    exact ⟨vs.foldl maxStep v, l1, l2, rfl, heq, hub, hlt⟩
  · intro v vs hall
    have : ∀ ws w, (∀ r ∈ w :: ws, r.createtime = none) → ws.foldl maxStep w = w := by
      intro ws
      induction ws with
      | nil => intro w _; rfl
      | cons y ys ih =>
        intro w hw
        rw [List.foldl_cons]
        have hkw : createtimeKey w = 0 := by
          simp [createtimeKey, hw w (List.mem_cons_self w (y :: ys))]
        have hky : createtimeKey y = 0 := by
          simp [createtimeKey,
            hw y (List.mem_cons_of_mem w (List.mem_cons_self y ys))]
        rw [show maxStep w y = w from if_neg (by rw [hkw, hky]; exact lt_irrefl 0)]
        refine ih w ?_
        intro r hr
        rcases List.mem_cons.mp hr with hr | hr
        · exact hw r (hr ▸ List.mem_cons_self w (y :: ys))
        · exact hw r (List.mem_cons_of_mem w (List.mem_cons_of_mem y hr))
    simp only [select_latest]
    rw [this vs v hall]

/-- C5 witness: over timestamps `[5, 9, 3]` the fold settles on the
record with timestamp 9, via the general first-maximum property. -/
theorem select_latest_spec_witness :
    select_latest [⟨1, some 5⟩, ⟨2, some 9⟩, ⟨3, some 3⟩] = .ok ⟨2, some 9⟩ :=
  select_latest_spec.2.2.1

/-- A user record of the search response, reduced to the nested
`contact` fields read by the pipeline. -/
structure UserRecord where
  nickname : Option String
  username : Option String
  signature : Option String
deriving DecidableEq, Repr

/-- Embedding of `_select_user(data, index)`: raise on an empty result
list, raise on an out-of-range index (negative or beyond the end), and
otherwise return `data[index]`. -/
def select_user (data : List UserRecord) (index : Int) : Except String UserRecord :=
  if data.isEmpty then .error "No users found"
  else if h : index < 0 ∨ (data.length : Int) ≤ index then
    .error ("User index out of range: " ++ toString index)
  else .ok (data.get ⟨index.toNat, by omega⟩)

/-- C6 counterexample: on the empty list with index 0 (an index that is
`≥ length`), `_select_user` does not fail with the index-out-of-range
error; it fails with the distinct no-users error instead. -/
theorem select_user_empty_counterexample :
    (([] : List UserRecord).length : Int) ≤ 0 ∧
    select_user [] 0 ≠ .error ("User index out of range: " ++ toString (0 : Int)) ∧
    select_user [] 0 = .error "No users found" := by
  refine ⟨by decide, ?_, rfl⟩
  intro h
  have h0 : select_user ([] : List UserRecord) 0 = .error "No users found" := rfl
  rw [h0] at h
  exact absurd (Except.error.inj h) (by decide)

/-- C6 (amended): on a nonempty list `_select_user` fails with the
index-out-of-range error exactly when the index is negative or `≥` the
length, and otherwise returns the record at that index; on the empty
list it fails with the distinct no-users error; any negative index
fails on any list. -/
theorem select_user_spec (data : List UserRecord) (index : Int) :
    (data = [] → select_user data index = .error "No users found") ∧
    (data ≠ [] → (index < 0 ∨ (data.length : Int) ≤ index) →
      select_user data index = .error ("User index out of range: " ++ toString index)) ∧
    (data ≠ [] → ¬(index < 0 ∨ (data.length : Int) ≤ index) →
      ∃ h : index.toNat < data.length,
        select_user data index = .ok (data.get ⟨index.toNat, h⟩)) ∧
    (index < 0 → ∃ e, select_user data index = .error e) := by
  refine ⟨?_, ?_, ?_, ?_⟩
  · intro h
    simp [select_user, h]
  · intro hne hrange
    rw [select_user, if_neg (by simpa [List.isEmpty_iff] using hne), dif_pos hrange]
  · intro hne hrange
    refine ⟨by omega, ?_⟩
    rw [select_user, if_neg (by simpa [List.isEmpty_iff] using hne), dif_neg hrange]
  · intro hneg
    by_cases h : data = []
    · exact ⟨"No users found", by simp [select_user, h]⟩
    · exact ⟨"User index out of range: " ++ toString index,
        by rw [select_user, if_neg (by simpa [List.isEmpty_iff] using h),
          dif_pos (Or.inl hneg)]⟩

/-- C6 witness: index 5 on a 3-element list fails with the
index-out-of-range error, and index 1 on the same list returns the
second record. -/
theorem select_user_spec_witness :
    select_user [⟨none, some "a", none⟩, ⟨none, some "b", none⟩, ⟨none, some "c", none⟩] 5 =
      .error ("User index out of range: " ++ toString (5 : Int)) ∧
    select_user [⟨none, some "a", none⟩, ⟨none, some "b", none⟩, ⟨none, some "c", none⟩] 1 =
      .ok ⟨none, some "b", none⟩ :=
  ⟨(select_user_spec [⟨none, some "a", none⟩, ⟨none, some "b", none⟩,
      ⟨none, some "c", none⟩] 5).2.1 (by decide) (by norm_num),
   by
    obtain ⟨h, he⟩ := (select_user_spec [⟨none, some "a", none⟩, ⟨none, some "b", none⟩,
      ⟨none, some "c", none⟩] 1).2.2.1 (by decide) (by norm_num)
    exact he⟩

/-- A JSON value as handled by the dict-shaped API responses. -/
inductive Json where
  | null : Json
  | num : Int → Json
  | str : String → Json
  | arr : List Json → Json
  | obj : List (String × Json) → Json

/-- Python `d.get(key)` on a parsed JSON value: the first binding of the
key when the value is an object, `None` otherwise. -/
def jsonGet (j : Json) (key : String) : Option Json :=
  match j with
  | .obj fields => fields.lookup key
  | _ => none

mutual

/-- A rendering of a JSON value, standing in for the Python string
interpolation of a parsed response body in error messages. -/
def jsonDump : Json → String
  | .null => "None"
  | .num n => toString n
  | .str s => s
  | .arr xs => "[" ++ jsonDumpList xs ++ "]"
  | .obj fs => "\x7b" ++ jsonDumpFields fs ++ "\x7d"

/-- Renders the elements of a JSON array. -/
def jsonDumpList : List Json → String
  | [] => ""
  | [x] => jsonDump x
  | x :: y :: xs => jsonDump x ++ ", " ++ jsonDumpList (y :: xs)

/-- Renders the bindings of a JSON object. -/
def jsonDumpFields : List (String × Json) → String
  | [] => ""
  | [(k, v)] => k ++ ": " ++ jsonDump v
  | (k, v) :: y :: xs => k ++ ": " ++ jsonDump v ++ ", " ++ jsonDumpFields (y :: xs)

end

/-- Embedding of `_api_get(api_key, path, params)`, abstracted over the
response it receives: raise on a non-200 HTTP status with the status and
the first 500 characters of the body text, then parse the body and raise
when its top-level `code` field is not the integer 200, and otherwise
return the parsed body. -/
def api_get (status_code : Nat) (text : String) (body : Json) : Except String Json :=
  if status_code ≠ 200 then
    .error ("HTTP " ++ toString status_code ++ " " ++ text.take 500)
  else
    match jsonGet body "code" with
    | some (.num 200) => .ok body
    | _ => .error ("API error: " ++ jsonDump body)

/-- C7: a non-success HTTP status is a hard failure carrying the status
and the truncated body; a transport success whose application-level
`code` is not the 200 sentinel is also a hard failure; the parsed body
is returned exactly when both checks pass. -/
theorem api_get_spec (status_code : Nat) (text : String) (body : Json) :
    (status_code ≠ 200 →
      api_get status_code text body =
        .error ("HTTP " ++ toString status_code ++ " " ++ text.take 500)) ∧
    (status_code = 200 → jsonGet body "code" ≠ some (.num 200) →
      api_get status_code text body = .error ("API error: " ++ jsonDump body)) ∧
    (api_get status_code text body = .ok body ↔
      (status_code = 200 ∧ jsonGet body "code" = some (.num 200))) := by
  refine ⟨?_, ?_, ?_, ?_⟩
  · intro h
    rw [api_get, if_pos h]
  · intro h hcode
    rw [api_get, if_neg (by simp [h])]
    split
    · rename_i heq
      exact absurd heq hcode
    · rfl
  · intro hok
    by_cases h : status_code = 200
    · refine ⟨h, ?_⟩
      rw [api_get, if_neg (by simp [h])] at hok
      revert hok
      split
      · rename_i heq
        intro _
        exact heq
      · intro hok
        simp at hok
    · rw [api_get, if_pos h] at hok
      simp at hok
  · rintro ⟨h, hcode⟩
    rw [api_get, if_neg (by simp [h]), hcode]
    rfl

/-- C7 witness: a 404 with body text fails carrying status and body; a
200 whose `code` is 500 fails; a 200 with `code` 200 returns the body. -/
theorem api_get_spec_witness :
    api_get 404 "not found" .null = .error ("HTTP " ++ toString 404 ++ " " ++
      String.take "not found" 500) ∧
    api_get 200 "" (.obj [("code", .num 500)]) =
      .error ("API error: " ++ jsonDump (.obj [("code", .num 500)])) ∧
    api_get 200 "" (.obj [("code", .num 200)]) = .ok (.obj [("code", .num 200)]) :=
  ⟨(api_get_spec 404 "not found" .null).1 (by decide),
   (api_get_spec 200 "" (.obj [("code", .num 500)])).2.1 rfl (by
      intro h
      injection Option.some.inj h with h2
      exact absurd h2 (by decide)),
   (api_get_spec 200 "" (.obj [("code", .num 200)])).2.2.mpr ⟨rfl, rfl⟩⟩

/-- Embedding of `_get_object_list(home_data)`: the value under
`object_list` when that key is present, else the value under `object`
when present, else the empty list, never an error. -/
def get_object_list (home_data : Json) : Json :=
  match jsonGet home_data "object_list" with
  | some v => v
  | none =>
    match jsonGet home_data "object" with
    | some v => v
    | none => .arr []

/-- C8: the media-list extractor returns the value under `object_list`
if present, otherwise the value under `object` if present, and otherwise
the empty list, raising no error. -/
theorem get_object_list_spec (home_data : Json) :
    (∀ v, jsonGet home_data "object_list" = some v → get_object_list home_data = v) ∧
    (jsonGet home_data "object_list" = none →
      ∀ v, jsonGet home_data "object" = some v → get_object_list home_data = v) ∧
    (jsonGet home_data "object_list" = none → jsonGet home_data "object" = none →
      get_object_list home_data = .arr []) := by
  refine ⟨?_, ?_, ?_⟩
  · intro v hv
    rw [get_object_list, hv]
  · intro hnone v hv
    rw [get_object_list, hnone, hv]
  · intro h1 h2
    rw [get_object_list, h1, h2]

/-- C8 witness: with both field names present the `object_list` value
wins; with only `object` present that value is used; with neither, the
extractor yields the empty list. -/
theorem get_object_list_spec_witness :
    get_object_list (.obj [("object_list", .arr [.num 1]), ("object", .arr [.num 2])]) =
      .arr [.num 1] ∧
    get_object_list (.obj [("object", .arr [.num 2])]) = .arr [.num 2] ∧
    get_object_list (.obj [("other", .null)]) = .arr [] :=
  ⟨(get_object_list_spec (.obj [("object_list", .arr [.num 1]),
      ("object", .arr [.num 2])])).1 (.arr [.num 1]) rfl,
   (get_object_list_spec (.obj [("object", .arr [.num 2])])).2.1 rfl (.arr [.num 2]) rfl,
   (get_object_list_spec (.obj [("other", .null)])).2.2 rfl rfl⟩

/-- Embedding of `_download_file(url, out_path)`, abstracted over the
streamed response: the HTTP status and the sequence of chunks that
`iter_content` yields.  `raise_for_status()` raises exactly on the 4xx
and 5xx statuses; otherwise each nonempty chunk is written to
`out_path` in order (the `if chunk:` guard skips empty keep-alive
chunks).  The first component is the file content written, the second is
the value of the call: the Python function is annotated `-> None`, so a
successful call carries only `Unit`. -/
def download_file (status_code : Nat) (chunks : List (List Byte)) :
    List Byte × Except String Unit :=
  if 400 ≤ status_code ∧ status_code < 600 then
    ([], .error ("HTTP error " ++ toString status_code))
  else
    ((chunks.filter fun c => ¬ c.isEmpty).flatten, .ok ())

/-- Dropping the empty chunks before concatenation changes nothing about
the bytes written. -/
theorem download_flatten_filter (chunks : List (List Byte)) :
    (chunks.filter fun c => ¬ c.isEmpty).flatten = chunks.flatten := by
  induction chunks with
  | nil => rfl
  | cons c cs ih =>
    by_cases h : c.isEmpty
    · rw [List.filter_cons_of_neg (by simp [h]), List.flatten_cons,
        List.isEmpty_iff.mp h, List.nil_append, ih]
    · rw [List.filter_cons_of_pos (by simp [h]), List.flatten_cons,
        List.flatten_cons, ih]

/-- C9 counterexample: two successful transfers that write different
byte counts (1 byte versus 2 bytes) produce the identical call result
`ok ()` — the function is `-> None` in the source and returns no byte
count. -/
theorem download_file_counterexample :
    (download_file 200 [[1]]).1.length = 1 ∧
    (download_file 200 [[1], [2]]).1.length = 2 ∧
    (download_file 200 [[1]]).2 = .ok () ∧
    (download_file 200 [[1], [2]]).2 = .ok () ∧
    (download_file 200 [[1]]).2 = (download_file 200 [[1], [2]]).2 := by
  refine ⟨rfl, rfl, rfl, rfl, rfl⟩

/-- C9 (amended): on an HTTP error status (the 4xx/5xx range covered by
`raise_for_status`) the transfer fails before writing anything, and on
any other status the call succeeds returning `None`, with the bytes
written to the destination being exactly the concatenation of the
streamed chunks. -/
theorem download_file_spec (status_code : Nat) (chunks : List (List Byte)) :
    (400 ≤ status_code ∧ status_code < 600 →
      download_file status_code chunks =
        ([], .error ("HTTP error " ++ toString status_code))) ∧
    (¬(400 ≤ status_code ∧ status_code < 600) →
      (download_file status_code chunks).2 = .ok () ∧
      (download_file status_code chunks).1 = chunks.flatten) := by
  constructor
  · intro h
    rw [download_file, if_pos h]
  · intro h
    rw [download_file, if_neg h]
    exact ⟨rfl, download_flatten_filter chunks⟩

/-- C9 witness: a 404 fails with the transfer error having written
nothing; a 200 writes the concatenated chunks and returns `None`. -/
theorem download_file_spec_witness :
    download_file 404 [[1], [2]] = ([], .error ("HTTP error " ++ toString 404)) ∧
    (download_file 200 [[1], [], [2, 3]]).1 = [1, 2, 3] :=
  ⟨(download_file_spec 404 [[1], [2]]).1 (by decide),
   ((download_file_spec 200 [[1], [], [2, 3]]).2 (by decide)).2.trans rfl⟩

/-- Python `int(q)` on a rational: truncation toward zero.  Division of
integers in Lean rounds toward negative infinity, so the negative case
is negated explicitly. -/
def pyInt (q : ℚ) : Int :=
  if 0 ≤ q then q.num / (q.den : Int) else -((-q).num / ((-q).den : Int))

/-- On nonnegative rationals Python truncation is the floor. -/
theorem pyInt_eq_floor (q : ℚ) (h : 0 ≤ q) : pyInt q = ⌊q⌋ := by
  rw [pyInt, if_pos h, Rat.floor_def]

/-- Truncation is nonpositive exactly on rationals below 1. -/
theorem pyInt_nonpos_iff (q : ℚ) : pyInt q ≤ 0 ↔ q < 1 := by
  by_cases h : 0 ≤ q
  · rw [pyInt_eq_floor q h]
    constructor
    · intro hle
      have : ⌊q⌋ < 1 := lt_of_le_of_lt hle one_pos
      exact_mod_cast Int.floor_lt.mp this
    · intro hlt
      have : ⌊q⌋ < (1 : Int) := Int.floor_lt.mpr (by exact_mod_cast hlt)
      omega
  · push_neg at h
    constructor
    · intro _
      exact lt_trans h one_pos
    · intro _
      rw [pyInt, if_neg (not_le.mpr h)]
      have hnum : 0 ≤ (-q).num := Rat.num_nonneg.mpr (by linarith)
      have := Int.ediv_nonneg hnum (Int.ofNat_nonneg (-q).den)
      omega

/-- Embedding of `_calc_bitrates(target_mb, duration_s, audio_kbps,
safety)`.  Python float arithmetic is idealised as exact rational
arithmetic: the target is converted with binary megabytes
(`target_mb * 1024 * 1024` bytes), the duration is clamped below at
0.001, the audio bitrate uses decimal kilobits (`audio_kbps * 1000`),
the video bitrate is the `int`-truncated difference, a nonpositive
truncation raises, and the result is floored at 200000 bps. -/
def calc_bitrates (target_mb duration_s : ℚ) (audio_kbps : Int) (safety : ℚ) :
    Except String Int :=
  let target_bytes := target_mb * 1024 * 1024
  let total_bps := target_bytes * 8 / max duration_s (1 / 1000) * safety
  let audio_bps : ℚ := (audio_kbps : ℚ) * 1000
  let video_bps := pyInt (total_bps - audio_bps)
  if video_bps ≤ 0 then .error "Target size too small for chosen audio bitrate"
  else .ok (max video_bps 200000)

/-- C3 counterexample: at `target_mb = 1`, `duration_s = 16777216`,
`audio_kbps = 0`, `safety = 1` — all satisfying the claimed
preconditions — the remainder after subtracting the audio bitrate is
`1/2 > 0`, yet `_calc_bitrates` raises the infeasible-target error,
contradicting `raises exactly when the remainder is ≤ 0`. -/
theorem calc_bitrates_counterexample :
    (0 : ℚ) < 1 * 1024 * 1024 * 8 / 16777216 * 1 - 0 * 1000 ∧
    calc_bitrates 1 16777216 0 1 = .error "Target size too small for chosen audio bitrate" := by
  constructor
  · norm_num
  · simp only [calc_bitrates]
    rw [show max (16777216 : ℚ) (1 / 1000) = 16777216 from max_eq_left (by norm_num)]
    rw [if_pos]
    rw [pyInt_nonpos_iff]
    norm_num

/-- Evaluation rule for the estimator on feasible inputs: when the
duration is at least the clamp value and the exact remainder is at least
1, the estimator succeeds with the truncated remainder floored at
200000 bps. -/
theorem calc_bitrates_ok (target_mb duration_s : ℚ) (audio_kbps : Int)
    (safety : ℚ) (hdur : 1 / 1000 ≤ duration_s)
    (hge : 1 ≤ target_mb * 1024 * 1024 * 8 / duration_s * safety - audio_kbps * 1000) :
    calc_bitrates target_mb duration_s audio_kbps safety =
      .ok (max (pyInt (target_mb * 1024 * 1024 * 8 / duration_s * safety -
        audio_kbps * 1000)) 200000) := by
  have hmax : max duration_s (1 / 1000 : ℚ) = duration_s := max_eq_left hdur
  have hpos : ¬ pyInt (target_mb * 1024 * 1024 * 8 / max duration_s (1 / 1000) *
      safety - audio_kbps * 1000) ≤ 0 := by
    rw [hmax, pyInt_nonpos_iff]
    exact not_lt.mpr hge
  rw [calc_bitrates]
  simp only [hpos, if_false]
  rw [hmax]

/-- C3 (amended): for duration at least the clamp value 0.001 the total
allowed bitrate is `(target_mb * 2^20 * 8 / duration_s) * safety` with
binary megabytes for size and decimal units for the audio bitrate
(`audio_kbps * 1000`); the estimator raises the infeasible-target error
exactly when the int-truncated remainder is nonpositive, equivalently
when the exact remainder is below 1 (not merely when it is ≤ 0); and
otherwise it returns the truncated remainder floored at 200000 bps. -/
theorem calc_bitrates_spec (target_mb duration_s : ℚ) (audio_kbps : Int)
    (safety : ℚ) (hdur : 1 / 1000 ≤ duration_s) :
    (calc_bitrates target_mb duration_s audio_kbps safety =
        .error "Target size too small for chosen audio bitrate" ↔
      target_mb * 1024 * 1024 * 8 / duration_s * safety - audio_kbps * 1000 < 1) ∧
    (1 ≤ target_mb * 1024 * 1024 * 8 / duration_s * safety - audio_kbps * 1000 →
      calc_bitrates target_mb duration_s audio_kbps safety =
        .ok (max (pyInt (target_mb * 1024 * 1024 * 8 / duration_s * safety -
          audio_kbps * 1000)) 200000)) := by
  have hmax : max duration_s (1 / 1000 : ℚ) = duration_s := max_eq_left hdur
  constructor
  · constructor
    · intro herr
      by_contra hge
      push_neg at hge
      have hpos : ¬ pyInt (target_mb * 1024 * 1024 * 8 / max duration_s (1 / 1000) *
          safety - audio_kbps * 1000) ≤ 0 := by
        rw [hmax, pyInt_nonpos_iff]
        exact not_lt.mpr hge
      rw [calc_bitrates] at herr
      simp only [hpos, if_false] at herr
      exact Except.noConfusion herr
    · intro hlt
      have hpos : pyInt (target_mb * 1024 * 1024 * 8 / max duration_s (1 / 1000) *
          safety - audio_kbps * 1000) ≤ 0 := by
        rw [hmax, pyInt_nonpos_iff]
        exact hlt
      rw [calc_bitrates]
      simp only [hpos, if_true]
  · exact calc_bitrates_ok target_mb duration_s audio_kbps safety hdur

/-- C3 witness: the spec example target 50 MB, 300 s, 96 kbps audio,
safety 0.96 yields the truncated remainder 1246177 bps, above the
200000 bps floor. -/
theorem calc_bitrates_spec_witness :
    calc_bitrates 50 300 96 (96 / 100) = .ok 1246177 := by
  have h := (calc_bitrates_spec 50 300 96 (96 / 100) (by norm_num)).2 (by norm_num)
  rw [h]
  have hq : pyInt ((50 : ℚ) * 1024 * 1024 * 8 / 300 * (96 / 100) -
      ((96 : Int) : ℚ) * 1000) = 1246177 := by
    rw [pyInt_eq_floor _ (by norm_num), Int.floor_eq_iff]
    constructor <;> norm_num
  rw [hq]
  exact congrArg Except.ok (by decide)

/-- Outcome of the transcode retry loop of `main` in
`compress_video_to_size.py`, together with the safety factor used by
each encode attempt that ran, in order. -/
inductive TranscodeResult where
  | done (safeties : List ℚ)
  | infeasible (msg : String) (safeties : List ℚ)
  | unreachable (lastOutputPath : String) (safeties : List ℚ)

/-- Embedding of the `for attempt in range(args.retries + 1)` loop of
`main`, counted by remaining iterations.  Each iteration computes the
video bitrate with `_calc_bitrates` (whose error aborts the run),
invokes the encoder and measures the written file; the external
encode-and-measure step is abstracted as the stub `sizeMB`, mapping the
computed video bitrate to the measured output size in binary megabytes.
A measurement within the target ends the loop; otherwise the safety
factor decays by the fixed factor 0.9 and the loop continues.  Falling
off the loop raises the unreachable-target error, which reports
`out_path`, the output written by the last attempt. -/
def transcodeLoop (sizeMB : Int → ℚ) (target_mb duration_s : ℚ)
    (audio_kbps : Int) (out_path : String) : Nat → ℚ → TranscodeResult
  | 0, _ => .unreachable out_path []
  | n + 1, safety =>
    match calc_bitrates target_mb duration_s audio_kbps safety with
    | .error e => .infeasible e []
    | .ok video_bps =>
      if sizeMB video_bps ≤ target_mb then
        .done [safety]
      else
        match transcodeLoop sizeMB target_mb duration_s audio_kbps out_path n
            (safety * (9 / 10)) with
        | .done l => .done (safety :: l)
        | .infeasible e l => .infeasible e (safety :: l)
        | .unreachable p l => .unreachable p (safety :: l)

/-- The transcoder entry point: `retries + 1` loop iterations starting
from the configured safety factor. -/
def transcode_main (sizeMB : Int → ℚ) (target_mb duration_s : ℚ)
    (audio_kbps : Int) (out_path : String) (retries : Nat) (safety : ℚ) :
    TranscodeResult :=
  transcodeLoop sizeMB target_mb duration_s audio_kbps out_path (retries + 1) safety

/-- When every encode attempt overshoots the target, the loop runs all
its iterations, the attempt at index `i` using the initial safety factor
decayed `i` times by 0.9, and ends unreachable reporting the output
path. -/
theorem transcodeLoop_all_oversized (sizeMB : Int → ℚ) (target_mb duration_s : ℚ)
    (audio_kbps : Int) (out_path : String)
    (hover : ∀ v, target_mb < sizeMB v) :
    ∀ (n : Nat) (s : ℚ),
      (∀ i : Nat, i < n →
        ∃ v, calc_bitrates target_mb duration_s audio_kbps (s * (9 / 10) ^ i) = .ok v) →
      transcodeLoop sizeMB target_mb duration_s audio_kbps out_path n s =
        .unreachable out_path (List.ofFn fun i : Fin n => s * (9 / 10 : ℚ) ^ (i : Nat)) := by
  intro n
  induction n with
  | zero =>
    intro s _
    simp [transcodeLoop]
  | succ n ih =>
    intro s hcalc
    obtain ⟨v, hv⟩ := hcalc 0 (Nat.succ_pos n)
    rw [pow_zero, mul_one] at hv
    have ihh := ih (s * (9 / 10)) (by
      intro i hi
      obtain ⟨w, hw⟩ := hcalc (i + 1) (by omega)
      exact ⟨w, by
        rw [show s * (9 / 10) * (9 / 10 : ℚ) ^ i = s * (9 / 10) ^ (i + 1) from by ring]
        exact hw⟩)
    have hlist : (List.ofFn fun i : Fin (n + 1) => s * (9 / 10 : ℚ) ^ (i : Nat)) =
        s :: List.ofFn fun i : Fin n => s * (9 / 10) * (9 / 10 : ℚ) ^ (i : Nat) := by
      rw [List.ofFn_succ]
      refine congrArg₂ List.cons ?_ (congrArg List.ofFn (funext fun i => ?_))
      · rw [Fin.val_zero, pow_zero, mul_one]
      · rw [Fin.val_succ]
        ring
    simp only [transcodeLoop, hv]
    rw [if_neg (not_le.mpr (hover v)), ihh, hlist]

/-- C4: if every encode attempt produces an oversized output, the loop
performs exactly `retries + 1` attempts, the safety factor multiplying
by the fixed decay 0.9 after each oversized attempt, and raises the
unreachable-target error reporting the last output path; conversely a
first attempt whose measured size fits the target ends the loop at once
with that single attempt. -/
theorem transcode_retry_spec (sizeMB : Int → ℚ) (target_mb duration_s : ℚ)
    (audio_kbps : Int) (out_path : String) (retries : Nat) (safety : ℚ) :
    ((∀ i : Nat, i ≤ retries →
        ∃ v, calc_bitrates target_mb duration_s audio_kbps (safety * (9 / 10) ^ i) = .ok v) →
      (∀ v, target_mb < sizeMB v) →
      transcode_main sizeMB target_mb duration_s audio_kbps out_path retries safety =
        .unreachable out_path
          (List.ofFn fun i : Fin (retries + 1) => safety * (9 / 10 : ℚ) ^ (i : Nat))) ∧
    (∀ v, calc_bitrates target_mb duration_s audio_kbps safety = .ok v →
      sizeMB v ≤ target_mb →
      transcode_main sizeMB target_mb duration_s audio_kbps out_path retries safety =
        .done [safety]) := by
  constructor
  · intro hcalc hover
    exact transcodeLoop_all_oversized sizeMB target_mb duration_s audio_kbps out_path
      hover (retries + 1) safety (fun i hi => hcalc i (by omega))
  · intro v hv hle
    rw [transcode_main]
    simp only [transcodeLoop, hv]
    rw [if_pos hle]

/-- C4 witness: with an encoder stub that always measures 2 MiB against
a 1 MiB target, 2 extra retries make exactly 3 attempts with safety
factors 1, 0.9, 0.81, ending unreachable and reporting the output
path. -/
theorem transcode_retry_spec_witness :
    transcode_main (fun _ => 2) 1 1 0 "out.mp4" 2 1 =
      .unreachable "out.mp4" [1, 9 / 10, 81 / 100] := by
  have h := (transcode_retry_spec (fun _ => 2) 1 1 0 "out.mp4" 2 1).1
    (by
      intro i hi
      interval_cases i
      · exact ⟨_, calc_bitrates_ok 1 1 0 (1 * (9 / 10) ^ 0) (by norm_num) (by norm_num)⟩
      · exact ⟨_, calc_bitrates_ok 1 1 0 (1 * (9 / 10) ^ 1) (by norm_num) (by norm_num)⟩
      · exact ⟨_, calc_bitrates_ok 1 1 0 (1 * (9 / 10) ^ 2) (by norm_num) (by norm_num)⟩)
    (by
      intro v
      norm_num)
  rw [h]
  have hlist : (List.ofFn fun i : Fin 3 => (1 : ℚ) * (9 / 10 : ℚ) ^ (i : Nat)) =
      [1, 9 / 10, 81 / 100] := by
    simp [List.ofFn_succ]
    norm_num
  rw [hlist]

end TikHub
